import Mathlib

/-!
Verification development for the RDKit2Mol repository (`model_hugf.ipynb`).

The notebook contains three iterative drafts of the same model; following the
specification's design notes, the final (most complete) draft is embedded:
the third model cell (`MolGPTConfig`, `DescriptorEncoder`, `MolGPTEmbeddings`,
`MolGPTTransformer`, `generate_causal_mask`, `MolGPTModel` with `generate`)
and the tokenizer cell (`SMILESTokenizerHF`).

Modelling conventions:
* Real-valued tensors are embedded as lists of rationals (`List ℚ`); a
  per-example sequence of embedding vectors is a `List (List ℚ)`.
* The transcendental floating-point primitives used by the framework
  (`exp` inside softmax, `sqrt` inside layer norm and attention scaling,
  `log` inside cross entropy) are abstracted into a `Prims` record of
  rational-valued functions; every theorem below is proved for an arbitrary
  such record, so it covers in particular the real `exp`/`sqrt`/`log`.
* Dropout layers are embedded in evaluation mode (identity), which is the
  mode used by `generate` (`self.eval()`) and the mode in which the logits
  are deterministic.
* The additive `-inf` causal mask produced by `generate_causal_mask` is
  embedded as the Boolean predicate "entry (i, j) is `-inf`", i.e.
  `i < j`; the softmax row of attention then ranges over exactly the
  positions that are not masked (`exp (-inf) = 0` in IEEE arithmetic).
* Python `assert` failures are embedded as `Except.error`.
-/

namespace RDKit2Mol

/-! ## Tokenizer (`SMILESTokenizerHF`) -/

/-- The fixed SMILES token set `self.tokens` of `SMILESTokenizerHF.__init__`,
in source order. -/
def smilesTokens : List String :=
  ["#", "%10", "%11", "%12", "(", ")", "-", "1", "2", "3", "4", "5", "6", "7",
   "8", "9", "<", "=", "B", "Br", "C", "Cl", "F", "I", "N", "O", "P", "S",
   "[B-]", "[BH-]", "[BH2-]", "[BH3-]", "[B]", "[C+]", "[C-]", "[CH+]",
   "[CH-]", "[CH2+]", "[CH2]", "[CH]", "[F+]", "[H]", "[I+]", "[IH2]",
   "[IH]", "[N+]", "[N-]", "[NH+]", "[NH-]", "[NH2+]", "[NH3+]", "[N]",
   "[O+]", "[O-]", "[OH+]", "[O]", "[P+]", "[PH+]", "[PH2+]", "[PH]",
   "[S+]", "[S-]", "[SH+]", "[SH]", "[Se+]", "[SeH+]", "[SeH]", "[Se]",
   "[Si-]", "[SiH-]", "[SiH2]", "[SiH]", "[Si]", "[b-]", "[bH-]", "[c+]",
   "[c-]", "[cH+]", "[cH-]", "[n+]", "[n-]", "[nH+]", "[nH]", "[o+]",
   "[s+]", "[sH+]", "[se+]", "[se]", "b", "c", "n", "o", "p", "s"]

/-- The `self.special_tokens_list` of `SMILESTokenizerHF.__init__`. -/
def specialTokensList : List String := ["<BOS>", "<EOS>", "<PAD>", "<UNK>"]

/-- The `self.all_tokens = self.special_tokens_list + self.tokens`. -/
def allTokens : List String := specialTokensList ++ smilesTokens

/-- The `self.vocab[token]`: the Python dict built from
`enumerate(self.all_tokens)`.  `allTokens` is duplicate-free, so dict lookup
is lookup of the (first) index of the token in the list. -/
def vocabGet (t : String) : Option ℕ :=
  allTokens.findIdx? (fun u => u == t)

/-- The `self.vocab['<UNK>']` (the reserved unknown id, evaluates to `3`). -/
def unkId : ℕ := (vocabGet "<UNK>").getD 0

/-- The `SMILESTokenizerHF._convert_token_to_id`:
`self.vocab.get(token, self.vocab['<UNK>'])`. -/
def convert_token_to_id (t : String) : ℕ :=
  (vocabGet t).getD unkId

/-- The `SMILESTokenizerHF._convert_id_to_token`:
`self.ids_to_tokens.get(index, '<UNK>')`, i.e. positional lookup in
`all_tokens` with `'<UNK>'` as the default. -/
def convert_id_to_token (i : ℕ) : String :=
  (allTokens[i]?).getD "<UNK>"

/-- The `SMILESTokenizerHF.convert_tokens_to_string`:
`''.join([t for t in tokens if t not in self.special_tokens_list])`. -/
def convert_tokens_to_string (ts : List String) : String :=
  String.join (ts.filter (fun t => !(specialTokensList.contains t)))

/-- The `SMILESTokenizerHF.build_inputs_with_special_tokens`:
`[self.vocab['<BOS>']] + token_ids + [self.vocab['<EOS>']]`. -/
def build_inputs_with_special_tokens (ids : List ℕ) : List ℕ :=
  ((vocabGet "<BOS>").getD 0) :: ids ++ [(vocabGet "<EOS>").getD 0]

/-! ### The tokenizer regex

`self.pattern = %\d{2}|\[[^\]]+\]|Cl|Br|Si|Se|As|B|C|N|O|F|P|S|I|[cnospb]|[0-9]|\(|\)|=|#|-|\/|\\|\.|<`

Python's `re` alternation is ordered: at a given start position the first
alternative that matches wins.  `findall` scans left to right, emitting the
match at the current position when one exists and otherwise advancing one
character (unmatched characters are silently dropped).  Each alternative is
embedded as a small function returning `some (matchedChars, rest)`. -/

/-- One-character literal alternative of the pattern. -/
def lit1 (a : Char) : List Char → Option (List Char × List Char)
  | c :: rest => if c == a then some ([a], rest) else none
  | [] => none

/-- Two-character literal alternative of the pattern (`Cl`, `Br`, `Si`, `Se`,
`As`). -/
def lit2 (a b : Char) : List Char → Option (List Char × List Char)
  | c :: rest =>
    if c == a then
      match rest with
      | d :: rest2 => if d == b then some ([a, b], rest2) else none
      | [] => none
    else none
  | [] => none

/-- Character-class alternatives `[cnospb]` and `[0-9]`. -/
def matchClass (p : Char → Bool) : List Char → Option (List Char × List Char)
  | c :: rest => if p c then some ([c], rest) else none
  | [] => none

/-- The alternative `%\d{2}`. -/
def matchPercent : List Char → Option (List Char × List Char)
  | c :: rest =>
    if c == '%' then
      match rest with
      | d1 :: d2 :: rest2 =>
        if d1.isDigit && d2.isDigit then some (['%', d1, d2], rest2) else none
      | _ => none
    else none
  | [] => none

/-- The alternative `\[[^\]]+\]`: an opening bracket, one or more
non-`]` characters, then the closing bracket. -/
def matchBracket : List Char → Option (List Char × List Char)
  | c :: rest =>
    if c == '[' then
      match rest.dropWhile (fun x => !(x == ']')) with
      | ']' :: rest2 =>
        let inner := rest.takeWhile (fun x => !(x == ']'))
        if inner.isEmpty then none else some ('[' :: inner ++ [']'], rest2)
      | _ => none
    else none
  | [] => none

/-- Ordered choice of two alternatives (Python `re` alternation). -/
def orAlt (a b : Option (List Char × List Char)) : Option (List Char × List Char) :=
  match a with
  | some x => some x
  | none => b

/-- The whole alternation of `self.pattern`, tried at the start of `cs`,
with the alternatives in source order. -/
def matchAlt (cs : List Char) : Option (List Char × List Char) :=
  orAlt (matchPercent cs) <|
  orAlt (matchBracket cs) <|
  orAlt (lit2 'C' 'l' cs) <|
  orAlt (lit2 'B' 'r' cs) <|
  orAlt (lit2 'S' 'i' cs) <|
  orAlt (lit2 'S' 'e' cs) <|
  orAlt (lit2 'A' 's' cs) <|
  orAlt (lit1 'B' cs) <|
  orAlt (lit1 'C' cs) <|
  orAlt (lit1 'N' cs) <|
  orAlt (lit1 'O' cs) <|
  orAlt (lit1 'F' cs) <|
  orAlt (lit1 'P' cs) <|
  orAlt (lit1 'S' cs) <|
  orAlt (lit1 'I' cs) <|
  orAlt (matchClass (fun c => c == 'c' || c == 'n' || c == 'o' || c == 's' || c == 'p' || c == 'b') cs) <|
  orAlt (matchClass Char.isDigit cs) <|
  orAlt (lit1 '(' cs) <|
  orAlt (lit1 ')' cs) <|
  orAlt (lit1 '=' cs) <|
  orAlt (lit1 '#' cs) <|
  orAlt (lit1 '-' cs) <|
  orAlt (lit1 '/' cs) <|
  orAlt (lit1 '\\' cs) <|
  orAlt (lit1 '.' cs) <|
  lit1 '<' cs

theorem orAlt_some {a b : Option (List Char × List Char)} {x : List Char × List Char}
    (h : orAlt a b = some x) : a = some x ∨ (a = none ∧ b = some x) := by
  cases a with
  | some y => exact Or.inl (by simpa [orAlt] using h)
  | none => exact Or.inr ⟨rfl, by simpa [orAlt] using h⟩

theorem lit1_some {a : Char} {cs t r : List Char} (h : lit1 a cs = some (t, r)) :
    cs = t ++ r ∧ t ≠ [] := by
  cases cs with
  | nil => simp [lit1] at h
  | cons c rest =>
    simp only [lit1] at h
    by_cases hc : c == a
    · simp only [hc, if_true] at h
      obtain ⟨rfl, rfl⟩ := by exact Prod.mk.injEq .. ▸ Option.some.injEq .. ▸ h
      exact ⟨by simp [List.cons_eq_cons, (beq_iff_eq ..).mp hc], by simp⟩
    · simp [hc] at h

theorem lit2_some {a b : Char} {cs t r : List Char} (h : lit2 a b cs = some (t, r)) :
    cs = t ++ r ∧ t ≠ [] := by
  cases cs with
  | nil => simp [lit2] at h
  | cons c rest =>
    simp only [lit2] at h
    by_cases hc : c == a
    · simp only [hc, if_true] at h
      cases rest with
      | nil => simp at h
      | cons d rest2 =>
        by_cases hd : d == b
        · simp only [hd, if_true, Option.some.injEq, Prod.mk.injEq] at h
          obtain ⟨rfl, rfl⟩ := h
          refine ⟨?_, by simp⟩
          simp [(beq_iff_eq ..).mp hc, (beq_iff_eq ..).mp hd]
        · simp [hd] at h
    · simp [hc] at h

theorem matchClass_some {p : Char → Bool} {cs t r : List Char}
    (h : matchClass p cs = some (t, r)) : cs = t ++ r ∧ t ≠ [] := by
  cases cs with
  | nil => simp [matchClass] at h
  | cons c rest =>
    simp only [matchClass] at h
    by_cases hc : p c
    · simp only [hc, if_true, Option.some.injEq, Prod.mk.injEq] at h
      obtain ⟨rfl, rfl⟩ := h
      exact ⟨rfl, by simp⟩
    · simp [hc] at h

theorem matchPercent_some {cs t r : List Char} (h : matchPercent cs = some (t, r)) :
    cs = t ++ r ∧ t ≠ [] := by
  cases cs with
  | nil => simp [matchPercent] at h
  | cons c rest =>
    simp only [matchPercent] at h
    by_cases hc : c == '%'
    · simp only [hc, if_true] at h
      match rest with
      | [] => simp at h
      | [d1] => simp at h
      | d1 :: d2 :: rest2 =>
        by_cases hd : d1.isDigit && d2.isDigit
        · simp only [hd, if_true, Option.some.injEq, Prod.mk.injEq] at h
          obtain ⟨rfl, rfl⟩ := h
          exact ⟨by simp [(beq_iff_eq ..).mp hc], by simp⟩
        · simp [hd] at h
    · simp [hc] at h

theorem matchBracket_some {cs t r : List Char} (h : matchBracket cs = some (t, r)) :
    cs = t ++ r ∧ t ≠ [] := by
  cases cs with
  | nil => simp [matchBracket] at h
  | cons c rest =>
    simp only [matchBracket] at h
    by_cases hc : c == '['
    · simp only [hc, if_true] at h
      have hsplit : rest.takeWhile (fun x => !(x == ']')) ++
          rest.dropWhile (fun x => !(x == ']')) = rest :=
        List.takeWhile_append_dropWhile _ _
      revert h
      match hdrop : rest.dropWhile (fun x => !(x == ']')) with
      | [] => intro h; simp at h
      | e :: rest2 =>
        intro h
        have he : e = ']' := by
          have := List.head?_dropWhile_not (p := fun x => !(x == ']')) (l := rest)
          rw [hdrop] at this
          simpa using this
        subst he
        by_cases hin : (rest.takeWhile (fun x => !(x == ']'))).isEmpty
        · simp [hin] at h
        · simp only [hin, if_false, Option.some.injEq, Prod.mk.injEq, Bool.false_eq_true] at h
          obtain ⟨rfl, rfl⟩ := h
          constructor
          · rw [(beq_iff_eq ..).mp hc]
            rw [hdrop] at hsplit
            simp only [List.cons_append, List.append_assoc, List.singleton_append,
              List.nil_append]
            rw [hsplit]
          · simp
    · simp [hc] at h

/-- Any successful match of the alternation splits the input as
`matched ++ rest` with a nonempty match; this justifies termination of the
left-to-right scan. -/
theorem matchAlt_some {cs t r : List Char} (h : matchAlt cs = some (t, r)) :
    cs = t ++ r ∧ t ≠ [] := by
  unfold matchAlt at h
  rcases orAlt_some h with h' | ⟨-, h⟩
  · exact matchPercent_some h'
  rcases orAlt_some h with h' | ⟨-, h⟩
  · exact matchBracket_some h'
  rcases orAlt_some h with h' | ⟨-, h⟩
  · exact lit2_some h'
  rcases orAlt_some h with h' | ⟨-, h⟩
  · exact lit2_some h'
  rcases orAlt_some h with h' | ⟨-, h⟩
  · exact lit2_some h'
  rcases orAlt_some h with h' | ⟨-, h⟩
  · exact lit2_some h'
  rcases orAlt_some h with h' | ⟨-, h⟩
  · exact lit2_some h'
  rcases orAlt_some h with h' | ⟨-, h⟩
  · exact lit1_some h'
  rcases orAlt_some h with h' | ⟨-, h⟩
  · exact lit1_some h'
  rcases orAlt_some h with h' | ⟨-, h⟩
  · exact lit1_some h'
  rcases orAlt_some h with h' | ⟨-, h⟩
  · exact lit1_some h'
  rcases orAlt_some h with h' | ⟨-, h⟩
  · exact lit1_some h'
  rcases orAlt_some h with h' | ⟨-, h⟩
  · exact lit1_some h'
  rcases orAlt_some h with h' | ⟨-, h⟩
  · exact lit1_some h'
  rcases orAlt_some h with h' | ⟨-, h⟩
  · exact lit1_some h'
  rcases orAlt_some h with h' | ⟨-, h⟩
  · exact matchClass_some h'
  rcases orAlt_some h with h' | ⟨-, h⟩
  · exact matchClass_some h'
  rcases orAlt_some h with h' | ⟨-, h⟩
  · exact lit1_some h'
  rcases orAlt_some h with h' | ⟨-, h⟩
  · exact lit1_some h'
  rcases orAlt_some h with h' | ⟨-, h⟩
  · exact lit1_some h'
  rcases orAlt_some h with h' | ⟨-, h⟩
  · exact lit1_some h'
  rcases orAlt_some h with h' | ⟨-, h⟩
  · exact lit1_some h'
  rcases orAlt_some h with h' | ⟨-, h⟩
  · exact lit1_some h'
  rcases orAlt_some h with h' | ⟨-, h⟩
  · exact lit1_some h'
  rcases orAlt_some h with h' | ⟨-, h⟩
  · exact lit1_some h'
  exact lit1_some h

/-- The `re.findall` of the tokenizer pattern, scanning left to right: emit the
match at the current position when one exists, otherwise silently drop one
character and continue. -/
def findallSMILES (cs : List Char) : List (List Char) :=
  match hm : matchAlt cs with
  | some (tok, rest) => tok :: findallSMILES rest
  | none =>
    match cs with
    | [] => []
    | _ :: rest => findallSMILES rest
termination_by cs.length
decreasing_by
  · obtain ⟨heq, hne⟩ := matchAlt_some hm
    subst heq
    simpa using List.length_lt_of_drop_ne_nil (by simpa using hne)
  · simp

/-- The `SMILESTokenizerHF._tokenize`: `self.pattern.findall(text)`. -/
def smiles_tokenize (text : String) : List String :=
  (findallSMILES text.toList).map (fun cs => String.mk cs)

/-- The `PreTrainedTokenizer.encode` pipeline with this tokenizer's
overrides: split with the regex, convert every token to its id, then wrap
with the special beginning/end markers. -/
def smilesEncode (s : String) : List ℕ :=
  build_inputs_with_special_tokens ((smiles_tokenize s).map convert_token_to_id)

/-- The `PreTrainedTokenizer.decode` pipeline with this tokenizer's
overrides: convert ids back to tokens and join them, stripping the special
tokens (`convert_tokens_to_string`). -/
def smilesDecode (ids : List ℕ) : String :=
  convert_tokens_to_string (ids.map convert_id_to_token)

/-- A string composed solely of vocabulary-recognized substrings: the
concatenation of a list of tokens. -/
def concatTokens : List String → String
  | [] => ""
  | t :: ts => t ++ concatTokens ts

/-! ### Round-trip machinery -/

/-- A suffix is "head safe" when its first character (if any) is none of the
characters that would extend a preceding `B`, `C` or `S` into the two-letter
alternatives `Br`, `Cl`, `Si`, `Se` of the pattern.  Every character that can
start a vocabulary token is head safe. -/
def headSafe (rest : List Char) : Prop :=
  rest.head? ≠ some 'l' ∧ rest.head? ≠ some 'r' ∧
  rest.head? ≠ some 'i' ∧ rest.head? ≠ some 'e'

theorem smiles_token_nonempty : ∀ t ∈ smilesTokens, t.toList ≠ [] := by decide

theorem smiles_token_headSafe : ∀ t ∈ smilesTokens, headSafe t.toList := by
  simp only [headSafe]
  decide

theorem headSafe_nil : headSafe [] := by
  refine ⟨?_, ?_, ?_, ?_⟩ <;> simp

/-- At the start of a vocabulary token, the ordered alternation matches
exactly that token, provided the remainder of the input is head safe. -/
theorem matchAlt_token (t : String) (ht : t ∈ smilesTokens) (rest : List Char)
    (hrest : headSafe rest) :
    matchAlt (t.toList ++ rest) = some (t.toList, rest) := by
  fin_cases ht <;>
  first
  | rfl
  | (cases rest with
     | nil => rfl
     | cons c rs =>
       obtain ⟨h1, h2, h3, h4⟩ := hrest
       simp only [List.head?_cons, ne_eq, Option.some.injEq] at h1 h2 h3 h4
       simp [matchAlt, orAlt, matchPercent, matchBracket, lit2, lit1, matchClass,
         h1, h2, h3, h4])

theorem findall_nil : findallSMILES [] = [] := by
  rw [findallSMILES]
  split
  · next heq => exact absurd heq (by simp [matchAlt, orAlt, matchPercent,
      matchBracket, lit1, lit2, matchClass])
  · rfl

theorem findall_match {cs tok rest : List Char} (h : matchAlt cs = some (tok, rest)) :
    findallSMILES cs = tok :: findallSMILES rest := by
  rw [findallSMILES]
  split
  · next tok' rest' heq =>
      rw [h] at heq
      cases heq
      rfl
  · next heq =>
      rw [h] at heq
      simp at heq

/-- The flattened character stream of a list of vocabulary tokens is head
safe. -/
theorem headSafe_flatten (ts : List String) (h : ∀ t ∈ ts, t ∈ smilesTokens) :
    headSafe ((ts.map String.toList).flatten) := by
  induction ts with
  | nil => simpa using headSafe_nil
  | cons t ts ih =>
    have ht : t ∈ smilesTokens := h t (List.mem_cons_self _ _)
    have hne := smiles_token_nonempty t ht
    have hsafe := smiles_token_headSafe t ht
    cases hl : t.toList with
    | nil => exact absurd hl hne
    | cons c cs =>
      rw [hl] at hsafe
      simp only [List.map_cons, List.flatten_cons, hl, List.cons_append]
      obtain ⟨h1, h2, h3, h4⟩ := hsafe
      simp only [List.head?_cons] at h1 h2 h3 h4 ⊢
      exact ⟨h1, h2, h3, h4⟩

/-- The `findall` re-splits a concatenation of vocabulary tokens into exactly
those tokens. -/
theorem findall_concat (ts : List String) (h : ∀ t ∈ ts, t ∈ smilesTokens) :
    findallSMILES ((ts.map String.toList).flatten) = ts.map String.toList := by
  induction ts with
  | nil => exact findall_nil
  | cons t ts ih =>
    have hts : ∀ u ∈ ts, u ∈ smilesTokens := fun u hu => h u (List.mem_cons_of_mem _ hu)
    have hm := matchAlt_token t (h t (List.mem_cons_self _ _)) _ (headSafe_flatten ts hts)
    simp only [List.map_cons, List.flatten_cons]
    rw [findall_match hm, ih hts]

/-- Dictionary lookup in a list of strings: `findIdx?` returns an index whose
entry is the key. -/
theorem findIdx_lookup {l : List String} {t : String} (h : t ∈ l) :
    ∃ i, l.findIdx? (fun u => u == t) = some i ∧ l[i]? = some t := by
  induction l with
  | nil => simp at h
  | cons a l ih =>
    by_cases ha : a = t
    · exact ⟨0, by simp [List.findIdx?_cons, ha], by simp [ha]⟩
    · have h' : t ∈ l := by
        rcases List.mem_cons.mp h with h'' | h''
        · exact absurd h''.symm ha
        · exact h''
      obtain ⟨i, hi, hg⟩ := ih h'
      refine ⟨i + 1, ?_, by simpa using hg⟩
      simp [List.findIdx?_cons, ha, hi]

/-- Converting a known token to its id and back yields the token. -/
theorem convert_id_token_roundtrip {t : String} (h : t ∈ allTokens) :
    convert_id_to_token (convert_token_to_id t) = t := by
  obtain ⟨i, hi, hg⟩ := findIdx_lookup h
  unfold convert_token_to_id vocabGet
  rw [hi]
  unfold convert_id_to_token
  simp [hg]

theorem smiles_not_special : ∀ t ∈ smilesTokens, specialTokensList.contains t = false := by
  decide

theorem toList_concatTokens (ts : List String) :
    (concatTokens ts).toList = (ts.map String.toList).flatten := by
  induction ts with
  | nil => rfl
  | cons t ts ih =>
    show (t ++ concatTokens ts).toList = _
    rw [show (t ++ concatTokens ts).toList = t.toList ++ (concatTokens ts).toList from rfl, ih]
    simp

theorem join_eq_concatTokens (ts : List String) : String.join ts = concatTokens ts := by
  rw [String.join_eq]
  have h := toList_concatTokens ts
  have : concatTokens ts = String.mk (concatTokens ts).toList := rfl
  rw [this, h]
  rfl

/-- The tokenizer re-splits a concatenation of vocabulary tokens into
exactly those tokens. -/
theorem smiles_tokenize_concat (ts : List String) (h : ∀ t ∈ ts, t ∈ smilesTokens) :
    smiles_tokenize (concatTokens ts) = ts := by
  unfold smiles_tokenize
  rw [toList_concatTokens, findall_concat ts h, List.map_map]
  have : ∀ t ∈ ts, ((fun cs => String.mk cs) ∘ String.toList) t = id t := fun t _ => rfl
  rw [List.map_congr_left this, List.map_id]

/-- C2 (`tokenizer_round_trip`).  Tokenizer round-trip: decoding the
encoding of a string composed solely of vocabulary tokens, with the special
tokens stripped, reproduces the string exactly. -/
theorem tokenizer_round_trip (ts : List String) (h : ∀ t ∈ ts, t ∈ smilesTokens) :
    smilesDecode (smilesEncode (concatTokens ts)) = concatTokens ts := by
  unfold smilesEncode smilesDecode build_inputs_with_special_tokens convert_tokens_to_string
  rw [smiles_tokenize_concat ts h]
  have hmap : (ts.map convert_token_to_id).map convert_id_to_token = ts := by
    rw [List.map_map]
    have : ∀ t ∈ ts, (convert_id_to_token ∘ convert_token_to_id) t = id t := by
      intro t hts
      exact convert_id_token_roundtrip (List.mem_append_right _ (h t hts))
    rw [List.map_congr_left this, List.map_id]
  simp only [List.cons_append, List.map_cons, List.map_append, hmap]
  have hbos : convert_id_to_token ((vocabGet "<BOS>").getD 0) = "<BOS>" := rfl
  have heos : convert_id_to_token ((vocabGet "<EOS>").getD 0) = "<EOS>" := rfl
  rw [hbos, heos]
  have hkeep : ts.filter (fun t => !(specialTokensList.contains t)) = ts :=
    List.filter_eq_self.mpr (fun t hts => by
      show (!(specialTokensList.contains t)) = true
      rw [smiles_not_special t (h t hts)]
      rfl)
  simp only [List.map_nil, List.filter_cons, List.filter_append, List.filter_nil,
    show (!(specialTokensList.contains "<BOS>")) = false from rfl,
    show (!(specialTokensList.contains "<EOS>")) = false from rfl,
    Bool.false_eq_true, if_false, List.append_nil, hkeep]
  exact join_eq_concatTokens ts

/-- C2 witness: a concrete SMILES-like string round-trips. -/
theorem tokenizer_round_trip_witness :
    (∀ t ∈ ["C", "Cl", "%10", "[NH+]", "c", "1", "(", "=", "O", ")"],
        t ∈ smilesTokens) ∧
      smilesDecode (smilesEncode (concatTokens
        ["C", "Cl", "%10", "[NH+]", "c", "1", "(", "=", "O", ")"])) =
        concatTokens ["C", "Cl", "%10", "[NH+]", "c", "1", "(", "=", "O", ")"] :=
  ⟨by decide, tokenizer_round_trip _ (by decide)⟩

/-! ## Configuration (`MolGPTConfig`) -/

/-- The `MolGPTConfig.__init__` keyword defaults, embedded as structure field
defaults. -/
structure MolGPTConfig where
  vocab_size : ℕ := 100
  embedding_dim : ℕ := 256
  padding_idx : ℕ := 0
  n_heads : ℕ := 8
  feedforward_dim : ℕ := 512
  n_layers : ℕ := 6
  desc_size : ℕ := 166
  max_position_embeddings : ℕ := 512
  hidden_dropout_prob : ℚ := 1/10

/-- A `MolGPTConfig()` built with all defaults. -/
def defaultConfig : MolGPTConfig := {}

/-- C6 counterexample: the tokenizer does NOT assign id 0 to `<PAD>` — the
special tokens are enumerated in the order BOS, EOS, PAD, UNK, so `<PAD>`
receives id 2 (id 0 belongs to `<BOS>`). -/
theorem pad_id_counterexample : convert_token_to_id "<PAD>" ≠ 0 := by decide

/-- C6 amended (`pad_id_amended`): the model configuration's padding index
defaults to 0, but the tokenizer assigns id 2 to its padding token `<PAD>`
and id 0 to `<BOS>`; the two components disagree about index 0. -/
theorem pad_id_amended :
    defaultConfig.padding_idx = 0 ∧
      convert_token_to_id "<PAD>" = 2 ∧
      convert_token_to_id "<BOS>" = 0 := by
  refine ⟨rfl, by decide, by decide⟩

/-- C8 (`unknown_token_fallback`).  Token-to-id conversion returns the
vocabulary id of a known token (indexing the vocabulary at the returned id
recovers the token), and the reserved `<UNK>` id (which is 3) for any token
absent from the vocabulary. -/
theorem unknown_token_fallback (t : String) :
    (t ∈ allTokens →
        vocabGet t = some (convert_token_to_id t) ∧
        convert_id_to_token (convert_token_to_id t) = t) ∧
      (t ∉ allTokens → convert_token_to_id t = unkId) ∧ unkId = 3 := by
  refine ⟨?_, ?_, by decide⟩
  · intro h
    obtain ⟨i, hi, hg⟩ := findIdx_lookup h
    refine ⟨?_, convert_id_token_roundtrip h⟩
    unfold convert_token_to_id vocabGet
    rw [hi]
    rfl
  · intro h
    unfold convert_token_to_id vocabGet
    have : allTokens.findIdx? (fun u => u == t) = none := by
      rw [List.findIdx?_eq_none_iff]
      intro u hu
      simp only [beq_eq_false_iff_ne, ne_eq]
      exact fun he => h (he ▸ hu)
    rw [this]
    rfl

/-- C8 witness: `Si` is produced by the regex alternation but absent from
the vocabulary; it maps to the `<UNK>` id 3, and the known token `Br` maps
to an id that indexes back to `Br`. -/
theorem unknown_token_fallback_witness :
    ("Si" ∉ allTokens ∧ convert_token_to_id "Si" = unkId) ∧
      ("Br" ∈ allTokens ∧ convert_id_to_token (convert_token_to_id "Br") = "Br") :=
  ⟨⟨by decide, ((unknown_token_fallback "Si").2.1 (by decide))⟩,
   ⟨by decide, ((unknown_token_fallback "Br").1 (by decide)).2⟩⟩

/-! ## Numeric embedding of the model

Real-valued tensors are embedded over `ℚ`; the framework's transcendental
floating-point primitives are abstracted into `Prims`, so every theorem
quantifying over a `Prims` covers the real `exp`/`sqrt`/`log` as a special
case.  Dropout is embedded in evaluation mode (identity). -/

/-- Abstract numeric primitives standing for the floating-point
`exp` (softmax), `sqrt` (layer norm, attention scaling, standard deviation)
and `log` (cross entropy). -/
structure Prims where
  fexp : ℚ → ℚ
  fsqrt : ℚ → ℚ
  flog : ℚ → ℚ

/-- Vector dot product. -/
def dot (a b : List ℚ) : ℚ := (List.zipWith (· * ·) a b).sum

/-- Elementwise vector sum. -/
def addVec (a b : List ℚ) : List ℚ := List.zipWith (· + ·) a b

/-- The `nn.Linear`: `y = W x + b`, one output entry per weight row. -/
def matVec (W : List (List ℚ)) (b : List ℚ) (x : List ℚ) : List ℚ :=
  List.zipWith (· + ·) (W.map (fun row => dot row x)) b

/-- Sum of a list of vectors (empty on the empty list). -/
def vecSum : List (List ℚ) → List ℚ
  | [] => []
  | v :: vs => vs.foldl addVec v

/-! ## Descriptor encoder (`DescriptorEncoder`, final draft) -/

/-- Learned state of `DescriptorEncoder`: the configured size and the bit
embedding table. -/
structure DescriptorEncoder where
  desc_size : ℕ
  bit_emb : ℕ → List ℚ

/-- The normalization line of `DescriptorEncoder.forward` (final draft):
`desc_norm = (desc - desc.mean(dim=-1)) / (desc.std(dim=-1) + 1e-6)`.
`torch.std` uses the unbiased estimator (denominator `D - 1`); its square
root is the abstract `fsqrt`.  Rational division by zero is 0 where the
float computation would produce NaN (`D ≤ 1`). -/
def descNorm (P : Prims) (xs : List ℚ) : List ℚ :=
  let m : ℚ := xs.sum / xs.length
  let varU : ℚ := (xs.map (fun x => (x - m) ^ 2)).sum / ((xs.length : ℚ) - 1)
  let sd : ℚ := P.fsqrt varU
  xs.map (fun x => (x - m) / (sd + 1 / 1000000))

/-- The `DescriptorEncoder.forward`: asserts the input length against the
configured size (`assert D == self.desc_size`, embedded as `Except.error`),
then scales the bit embedding of each position by the normalized scalar at
that position; dropout in eval mode. -/
def DescriptorEncoder.forward (P : Prims) (enc : DescriptorEncoder) (desc : List ℚ) :
    Except String (List (List ℚ)) :=
  if desc.length = enc.desc_size then
    .ok (List.zipWith (fun i v => (enc.bit_emb i).map (fun e => e * v))
      (List.range desc.length) (descNorm P desc))
  else
    .error "Input descriptor dim must match initialized size"

/-! ## Token + position embeddings (`MolGPTEmbeddings`) -/

/-- Learned state of `MolGPTEmbeddings`: the token and position embedding
tables. -/
structure MolGPTEmbeddings where
  token_embeddings : ℕ → List ℚ
  position_embeddings : ℕ → List ℚ

/-- The `MolGPTEmbeddings.forward`: token embedding plus position embedding at
absolute positions `0 .. T-1`; dropout in eval mode. -/
def MolGPTEmbeddings.forward (E : MolGPTEmbeddings) (input_ids : List ℕ) :
    List (List ℚ) :=
  List.zipWith (fun tid pos => addVec (E.token_embeddings tid) (E.position_embeddings pos))
    input_ids (List.range input_ids.length)

/-! ## Causal mask and transformer stack -/

/-- The `generate_causal_mask` (final draft): `torch.triu(full((n, n), -inf),
diagonal=1)`, the additive mask whose entry `(i, j)` is `-inf` exactly when
`j > i`.  Embedded as the predicate "entry `(i, j)` is `-inf`"; the indices
range over the `seq_len × seq_len` square in every use. -/
def generate_causal_mask (seq_len : ℕ) : ℕ → ℕ → Bool :=
  fun i j => decide (i < j)

/-- Learned state of one `nn.MultiheadAttention` (the packed in-projection
split into its query/key/value thirds) plus the output projection. -/
structure MultiheadAttention where
  Wq : List (List ℚ)
  bq : List ℚ
  Wk : List (List ℚ)
  bk : List ℚ
  Wv : List (List ℚ)
  bv : List ℚ
  Wo : List (List ℚ)
  bo : List ℚ

/-- Softmax weights of a score row, with the abstract exponential:
`w_j = exp s_j / Σ_k exp s_k`. -/
def softmaxWeights (P : Prims) (scores : List ℚ) : List ℚ :=
  let es := scores.map P.fexp
  let z := es.sum
  es.map (fun e => e / z)

/-- Chunk `k` of size `hd` of a projected vector (one attention head). -/
def headChunk (hd k : ℕ) (v : List ℚ) : List ℚ := (v.drop (k * hd)).take hd

/-- The key positions the additive mask allows a query position `i` to
attend to: the positions of the sequence whose mask entry is not `-inf`
(those contribute softmax weight 0: `exp (-inf) = 0`). -/
def attnAllowed (mask : ℕ → ℕ → Bool) (len i : ℕ) : List ℕ :=
  (List.range len).filter (fun j => !(mask i j))

/-- One attention head at one query position: softmax the scaled dot-product
scores of the query chunk against the key chunks of the allowed positions
(`kjs`), and take the weighted sum of the value chunks of those same
positions (`vjs`). -/
def attnHead (P : Prims) (hd k : ℕ) (q : List ℚ) (kjs vjs : List (List ℚ)) : List ℚ :=
  vecSum (List.zipWith (fun w vj => (headChunk hd k vj).map (fun t => w * t))
    (softmaxWeights P
      (kjs.map (fun kj => dot (headChunk hd k q) (headChunk hd k kj) / P.fsqrt (hd : ℚ))))
    vjs)

/-- The `nn.MultiheadAttention` forward in evaluation mode: project queries,
keys and values, split into `n_heads` chunks of `head_dim =
embed_dim / n_heads`; at each output position run every head over the
key/value vectors of the positions the additive mask allows; finally
concatenate the heads and apply the output projection. -/
def MultiheadAttention.forward (P : Prims) (A : MultiheadAttention)
    (embed_dim n_heads : ℕ) (mask : ℕ → ℕ → Bool) (xs : List (List ℚ)) :
    List (List ℚ) :=
  (List.range xs.length).map (fun i =>
    matVec A.Wo A.bo
      ((List.range n_heads).map (fun k =>
        attnHead P (embed_dim / n_heads) k
          ((xs.map (matVec A.Wq A.bq)).getD i [])
          ((attnAllowed mask xs.length i).map
            (fun j => (xs.map (matVec A.Wk A.bk)).getD j []))
          ((attnAllowed mask xs.length i).map
            (fun j => (xs.map (matVec A.Wv A.bv)).getD j [])))).flatten)

/-- The `torch.nn.LayerNorm` with `eps = 1e-5` (biased variance), elementwise
affine parameters `g`/`b`; the square root is the abstract `fsqrt`. -/
def layerNorm (P : Prims) (g b x : List ℚ) : List ℚ :=
  let n : ℚ := x.length
  let m : ℚ := x.sum / n
  let v : ℚ := (x.map (fun t => (t - m) ^ 2)).sum / n
  let sd : ℚ := P.fsqrt (v + 1 / 100000)
  List.zipWith (fun gb t => gb.1 * ((t - m) / sd) + gb.2) (g.zip b) x

/-- Learned state of one `nn.TransformerEncoderLayer`. -/
structure TransformerEncoderLayer where
  self_attn : MultiheadAttention
  linear1W : List (List ℚ)
  linear1b : List ℚ
  linear2W : List (List ℚ)
  linear2b : List ℚ
  norm1g : List ℚ
  norm1b : List ℚ
  norm2g : List ℚ
  norm2b : List ℚ

/-- The attention sublayer with its residual connection and post-norm:
`x = norm1(x + self_attn(x))`. -/
def TransformerEncoderLayer.sublayer1 (P : Prims) (L : TransformerEncoderLayer)
    (embed_dim n_heads : ℕ) (mask : ℕ → ℕ → Bool) (xs : List (List ℚ)) :
    List (List ℚ) :=
  List.zipWith (fun x a => layerNorm P L.norm1g L.norm1b (addVec x a)) xs
    (L.self_attn.forward P embed_dim n_heads mask xs)

/-- The position-wise feed-forward block `linear2(relu(linear1(x)))`
(dropout in eval mode). -/
def TransformerEncoderLayer.ffn (L : TransformerEncoderLayer) (x : List ℚ) : List ℚ :=
  matVec L.linear2W L.linear2b ((matVec L.linear1W L.linear1b x).map (fun t => max 0 t))

/-- The `nn.TransformerEncoderLayer` forward with the constructor's defaults
(post-norm, relu activation) in evaluation mode:
`x = norm1(x + attn(x)); x = norm2(x + linear2(relu(linear1(x))))`. -/
def TransformerEncoderLayer.forward (P : Prims) (L : TransformerEncoderLayer)
    (embed_dim n_heads : ℕ) (mask : ℕ → ℕ → Bool) (xs : List (List ℚ)) :
    List (List ℚ) :=
  List.zipWith (fun x f => layerNorm P L.norm2g L.norm2b (addVec x f))
    (L.sublayer1 P embed_dim n_heads mask xs)
    ((L.sublayer1 P embed_dim n_heads mask xs).map L.ffn)

/-- The `MolGPTTransformer`: an `nn.TransformerEncoder`, i.e. the list of
`num_layers` (deep-copied) encoder layers; `norm=None`, so no final norm. -/
structure MolGPTTransformer where
  layers : List TransformerEncoderLayer

/-- The `MolGPTTransformer.forward`: apply the layers in order under the given
attention mask. -/
def MolGPTTransformer.forward (P : Prims) (T : MolGPTTransformer)
    (embed_dim n_heads : ℕ) (mask : ℕ → ℕ → Bool) (xs : List (List ℚ)) :
    List (List ℚ) :=
  T.layers.foldl (fun s L => L.forward P embed_dim n_heads mask s) xs

/-! ## Main model (`MolGPTModel`, final draft) -/

/-- Learned state of `MolGPTModel`: configuration, submodules and the
`lm_head` linear projection. -/
structure MolGPTModel where
  config : MolGPTConfig
  embeddings : MolGPTEmbeddings
  descriptor_encoder : DescriptorEncoder
  transformer : MolGPTTransformer
  lm_headW : List (List ℚ)
  lm_headb : List ℚ

/-- The `MolGPTModel.forward` for one example of the batch (every tensor
operation of the forward pass acts on the batch examples independently):
embed the tokens, encode the descriptors, concatenate
`[descriptor segment ; token segment]`, run the causally masked transformer
stack, project with `lm_head`, and return only the token-segment logits
(`logits[:, desc_emb.size(1):, :]`).  The descriptor-shape assertion
propagates as `Except.error`. -/
def MolGPTModel.forwardLogits (P : Prims) (M : MolGPTModel)
    (input_ids : List ℕ) (descriptors : List ℚ) :
    Except String (List (List ℚ)) :=
  match M.descriptor_encoder.forward P descriptors with
  | .error e => .error e
  | .ok desc_emb =>
    let token_emb := M.embeddings.forward input_ids
    let x := desc_emb ++ token_emb
    let attn_mask := generate_causal_mask x.length
    let y := M.transformer.forward P M.config.embedding_dim M.config.n_heads attn_mask x
    let logits := y.map (matVec M.lm_headW M.lm_headb)
    .ok (logits.drop desc_emb.length)

/-- Sequence a list of fallible results, propagating the first error (a
Python exception aborts the whole batched call). -/
def seqExcept {α : Type} : List (Except String α) → Except String (List α)
  | [] => .ok []
  | .error e :: _ => .error e
  | .ok a :: rest => (seqExcept rest).map (fun l => a :: l)

/-- One-position cross entropy `-log softmax(row)[label]`, written as
`log (Σ_j exp row_j) - row[label]` with the abstract primitives. -/
def ceLossPos (P : Prims) (row : List ℚ) (label : ℕ) : ℚ :=
  P.flog ((row.map P.fexp).sum) - row.getD label 0

/-- The `nn.CrossEntropyLoss(ignore_index)` with the default mean reduction:
the mean is taken over exactly the positions whose label differs from the
ignore index.  When no position contributes, the float computation divides
0 by 0 and returns NaN; that undefined value is embedded as `none`. -/
def crossEntropyLossMean (P : Prims) (ignore_index : ℕ)
    (logits : List (List ℚ)) (labels : List ℕ) : Option ℚ :=
  if ((logits.zip labels).filter (fun p => !(p.2 == ignore_index))).isEmpty then none
  else some ((((logits.zip labels).filter (fun p => !(p.2 == ignore_index))).map
      (fun p => ceLossPos P p.1 p.2)).sum /
    ((((logits.zip labels).filter (fun p => !(p.2 == ignore_index))).length : ℕ) : ℚ))

/-- The `MolGPTModel.forward` over a batch with labels: the per-example token
logits together with the loss computed over the flattened
`(batch * T)` positions (`token_logits.view(-1, V)`, `labels.view(-1)`),
with `ignore_index = config.padding_idx`. -/
def MolGPTModel.forwardWithLoss (P : Prims) (M : MolGPTModel)
    (input_ids : List (List ℕ)) (descriptors : List (List ℚ))
    (labels : List (List ℕ)) :
    Except String (Option ℚ × List (List (List ℚ))) :=
  match seqExcept (List.zipWith (M.forwardLogits P) input_ids descriptors) with
  | .error e => .error e
  | .ok logitss =>
    .ok (crossEntropyLossMean P M.config.padding_idx logitss.flatten labels.flatten,
      logitss)

/-! ## Greedy generation (`MolGPTModel.generate`) -/

/-- The `torch.argmax` over a vector: the index of the first maximal entry. -/
def argmaxAux (i best : ℕ) (bv : ℚ) : List ℚ → ℕ
  | [] => best
  | x :: xs => if bv < x then argmaxAux (i + 1) i x xs else argmaxAux (i + 1) best bv xs

/-- The `torch.argmax` of a logits row (0 on the empty row). -/
def argmaxIdx : List ℚ → ℕ
  | [] => 0
  | x :: xs => argmaxAux 1 0 x xs

/-- The greedy next token of each example:
`torch.argmax(outputs.logits[:, -1, :], dim=-1)`. -/
def nextTokens (logitss : List (List (List ℚ))) : List ℕ :=
  logitss.map (fun logits => argmaxIdx (logits.getLast?.getD []))

/-- The loop body of `MolGPTModel.generate`, with the loop counter
(`for _ in range(max_length)`) as fuel: run the forward pass on the current
sequences, append the arg-max next token of each example, and stop when every
example just produced `config.padding_idx` (the `break`). -/
def MolGPTModel.generateAux (P : Prims) (M : MolGPTModel)
    (descriptors : List (List ℚ)) :
    ℕ → List (List ℕ) → Except String (List (List ℕ))
  | 0, generated => .ok generated
  | n + 1, generated =>
    match seqExcept (List.zipWith (M.forwardLogits P) generated descriptors) with
    | .error e => .error e
    | .ok logitss =>
      let next := nextTokens logitss
      let generated2 := List.zipWith (fun g t => g ++ [t]) generated next
      if next.all (fun t => t == M.config.padding_idx) then .ok generated2
      else M.generateAux P descriptors n generated2

/-- The `MolGPTModel.generate`: greedy decoding from the prompt batch for at
most `max_length` appended tokens. -/
def MolGPTModel.generate (P : Prims) (M : MolGPTModel)
    (input_ids : List (List ℕ)) (descriptors : List (List ℚ))
    (max_length : ℕ) : Except String (List (List ℕ)) :=
  M.generateAux P descriptors max_length input_ids

/-! ## Claims about the descriptor encoder -/

/-- Concrete primitives for witnesses (the identity stands in for the
abstract transcendental functions, which the theorems quantify over). -/
def testPrims : Prims := ⟨id, id, id⟩

theorem length_descNorm (P : Prims) (xs : List ℚ) : (descNorm P xs).length = xs.length := by
  unfold descNorm
  rw [List.length_map]

/-- On a matching-size input the descriptor encoder succeeds with the scaled
bit embeddings. -/
theorem descriptor_forward_ok {P : Prims} {enc : DescriptorEncoder} {desc : List ℚ}
    (h : desc.length = enc.desc_size) :
    enc.forward P desc = .ok (List.zipWith (fun i v => (enc.bit_emb i).map (fun e => e * v))
      (List.range desc.length) (descNorm P desc)) := by
  simp [DescriptorEncoder.forward, h]

/-- On a matching-size input the descriptor encoder returns `desc_size`
embedding vectors. -/
theorem descriptor_forward_ok_length {P : Prims} {enc : DescriptorEncoder} {desc : List ℚ}
    (h : desc.length = enc.desc_size) :
    ∃ out, enc.forward P desc = .ok out ∧ out.length = enc.desc_size := by
  refine ⟨_, descriptor_forward_ok h, ?_⟩
  rw [List.length_zipWith, List.length_range, length_descNorm, min_self, h]

/-- C7 (`descriptor_dim_check`).  The descriptor encoder's forward fails
with the shape-mismatch assertion if and only if the input length differs
from the configured descriptor size; under the matching-size precondition it
returns exactly `desc_size` embedding vectors. -/
theorem descriptor_dim_check (P : Prims) (enc : DescriptorEncoder) (desc : List ℚ) :
    ((∃ e, enc.forward P desc = .error e) ↔ desc.length ≠ enc.desc_size) ∧
      (desc.length = enc.desc_size →
        ∃ out, enc.forward P desc = .ok out ∧ out.length = enc.desc_size) := by
  constructor
  · constructor
    · rintro ⟨e, he⟩ hlen
      simp [DescriptorEncoder.forward, hlen] at he
    · intro hlen
      exact ⟨"Input descriptor dim must match initialized size",
        by simp [DescriptorEncoder.forward, hlen]⟩
  · exact fun hlen => descriptor_forward_ok_length hlen

/-- C7 witness: at the matching size the encoder returns `desc_size`
vectors, and at a mismatched size it errors. -/
theorem descriptor_dim_check_witness :
    (([3, 4] : List ℚ).length =
        ({ desc_size := 2, bit_emb := fun _ => [1] } : DescriptorEncoder).desc_size) ∧
      (∃ out, DescriptorEncoder.forward testPrims
          { desc_size := 2, bit_emb := fun _ => [1] } [3, 4] = .ok out ∧
          out.length = 2) ∧
      (∃ e, DescriptorEncoder.forward testPrims
          { desc_size := 2, bit_emb := fun _ => [1] } [3, 4, 5] = .error e) :=
  ⟨rfl,
   (descriptor_dim_check testPrims { desc_size := 2, bit_emb := fun _ => [1] } [3, 4]).2 rfl,
   (descriptor_dim_check testPrims { desc_size := 2, bit_emb := fun _ => [1] } [3, 4, 5]).1.mpr
     (by decide)⟩

/-- C9 (`const_descriptor_norm_zero`).  A descriptor vector all of whose
entries equal the same constant `c` normalizes to the all-zero vector,
independent of the magnitude of `c`: the centered numerator `c - mean` is
exactly 0 at every position, so the epsilon-guarded division returns 0
whatever the standard-deviation term is. -/
theorem const_descriptor_norm_zero (P : Prims) (xs : List ℚ) (c : ℚ)
    (hne : xs ≠ []) (hconst : ∀ x ∈ xs, x = c) :
    descNorm P xs = List.replicate xs.length 0 := by
  have hrep : xs = List.replicate xs.length c :=
    List.eq_replicate_iff.mpr ⟨rfl, hconst⟩
  have hlen : (xs.length : ℚ) ≠ 0 :=
    Nat.cast_ne_zero.mpr (List.length_pos.mpr hne).ne'
  conv_lhs => rw [hrep]
  simp only [descNorm, List.map_replicate, List.sum_replicate, List.length_replicate,
    smul_eq_mul, nsmul_eq_mul]
  rw [mul_div_cancel_left₀ c hlen, sub_self]
  simp [zero_div]

/-- C9 witness: the constant vector `[5, 5, 5]` normalizes to `[0, 0, 0]`. -/
theorem const_descriptor_norm_zero_witness :
    (([5, 5, 5] : List ℚ) ≠ [] ∧ ∀ x ∈ ([5, 5, 5] : List ℚ), x = 5) ∧
      descNorm testPrims [5, 5, 5] = List.replicate ([5, 5, 5] : List ℚ).length 0 :=
  ⟨⟨by decide, by decide⟩, const_descriptor_norm_zero testPrims [5, 5, 5] 5
    (by decide) (by decide)⟩

/-! ## Shape lemmas for the forward pass -/

theorem length_matVec (W : List (List ℚ)) (b x : List ℚ) :
    (matVec W b x).length = min W.length b.length := by
  simp [matVec]

theorem length_mha (P : Prims) (A : MultiheadAttention) (embed_dim n_heads : ℕ)
    (mask : ℕ → ℕ → Bool) (xs : List (List ℚ)) :
    (A.forward P embed_dim n_heads mask xs).length = xs.length := by
  simp [MultiheadAttention.forward]

theorem length_sublayer1 (P : Prims) (L : TransformerEncoderLayer) (embed_dim n_heads : ℕ)
    (mask : ℕ → ℕ → Bool) (xs : List (List ℚ)) :
    (L.sublayer1 P embed_dim n_heads mask xs).length = xs.length := by
  simp [TransformerEncoderLayer.sublayer1, length_mha]

theorem length_layer (P : Prims) (L : TransformerEncoderLayer) (embed_dim n_heads : ℕ)
    (mask : ℕ → ℕ → Bool) (xs : List (List ℚ)) :
    (L.forward P embed_dim n_heads mask xs).length = xs.length := by
  simp [TransformerEncoderLayer.forward, length_sublayer1]

theorem length_stack (P : Prims) (T : MolGPTTransformer) (embed_dim n_heads : ℕ)
    (mask : ℕ → ℕ → Bool) (xs : List (List ℚ)) :
    (T.forward P embed_dim n_heads mask xs).length = xs.length := by
  unfold MolGPTTransformer.forward
  induction T.layers generalizing xs with
  | nil => rfl
  | cons L ls ih => rw [List.foldl_cons, ih, length_layer]

theorem length_embeddings (E : MolGPTEmbeddings) (input_ids : List ℕ) :
    (E.forward input_ids).length = input_ids.length := by
  simp [MolGPTEmbeddings.forward]

/-- Unfolding of `MolGPTModel.forwardLogits` when the descriptor encoder
succeeds. -/
theorem forwardLogits_ok {P : Prims} {M : MolGPTModel} {input_ids : List ℕ}
    {descriptors : List ℚ} {demb : List (List ℚ)}
    (hde : M.descriptor_encoder.forward P descriptors = .ok demb) :
    M.forwardLogits P input_ids descriptors = .ok
      (((M.transformer.forward P M.config.embedding_dim M.config.n_heads
          (generate_causal_mask (demb ++ M.embeddings.forward input_ids).length)
          (demb ++ M.embeddings.forward input_ids)).map
            (matVec M.lm_headW M.lm_headb)).drop demb.length) := by
  unfold MolGPTModel.forwardLogits
  rw [hde]

/-- C5 (`logits_shape`).  On a batch example whose descriptor vector has the
configured size, the forward pass succeeds and the returned logits (after
the descriptor segment is discarded) have exactly one position per input
token, each of vocabulary-size width (the `lm_head` is constructed as
`nn.Linear(embedding_dim, vocab_size)`, so its weight has `vocab_size` rows
and its bias `vocab_size` entries). -/
theorem logits_shape (P : Prims) (M : MolGPTModel) (input_ids : List ℕ)
    (descriptors : List ℚ)
    (henc : M.descriptor_encoder.desc_size = M.config.desc_size)
    (hdesc : descriptors.length = M.config.desc_size)
    (hW : M.lm_headW.length = M.config.vocab_size)
    (hb : M.lm_headb.length = M.config.vocab_size) :
    ∃ lg, M.forwardLogits P input_ids descriptors = .ok lg ∧
      lg.length = input_ids.length ∧
      ∀ row ∈ lg, row.length = M.config.vocab_size := by
  obtain ⟨demb, hde, hdlen⟩ :=
    descriptor_forward_ok_length (P := P) (henc ▸ hdesc)
  refine ⟨_, forwardLogits_ok hde, ?_, ?_⟩
  · rw [List.length_drop, List.length_map, length_stack, List.length_append,
      length_embeddings]
    omega
  · intro row hrow
    have hrow' := List.mem_of_mem_drop hrow
    obtain ⟨v, _, hv⟩ := List.mem_map.mp hrow'
    rw [← hv, length_matVec, hW, hb, min_self]

/-- A tiny concrete configuration for witnesses. -/
def testConfig : MolGPTConfig :=
  { vocab_size := 2, embedding_dim := 2, padding_idx := 0, n_heads := 1,
    feedforward_dim := 2, n_layers := 1, desc_size := 2,
    max_position_embeddings := 8, hidden_dropout_prob := 0 }

/-- A concrete encoder layer for witnesses. -/
def testLayer : TransformerEncoderLayer :=
  { self_attn :=
      { Wq := [[1, 0], [0, 1]], bq := [0, 0],
        Wk := [[1, 0], [0, 1]], bk := [0, 0],
        Wv := [[1, 0], [0, 1]], bv := [0, 0],
        Wo := [[1, 0], [0, 1]], bo := [0, 0] },
    linear1W := [[1, 0], [0, 1]], linear1b := [0, 0],
    linear2W := [[1, 0], [0, 1]], linear2b := [0, 0],
    norm1g := [1, 1], norm1b := [0, 0],
    norm2g := [1, 1], norm2b := [0, 0] }

/-- A tiny concrete model instance for witnesses. -/
def testModel : MolGPTModel :=
  { config := testConfig,
    embeddings :=
      { token_embeddings := fun t => [(t : ℚ), 1],
        position_embeddings := fun p => [(p : ℚ), 0] },
    descriptor_encoder := { desc_size := 2, bit_emb := fun i => [1, (i : ℚ)] },
    transformer := { layers := [testLayer] },
    lm_headW := [[1, 0], [0, 1]], lm_headb := [0, 0] }

/-- C5 witness: a tiny concrete model returns one vocabulary-width logits
row per input token. -/
theorem logits_shape_witness :
    (testModel.descriptor_encoder.desc_size = testModel.config.desc_size ∧
        ([2, 0] : List ℚ).length = testModel.config.desc_size ∧
        testModel.lm_headW.length = testModel.config.vocab_size ∧
        testModel.lm_headb.length = testModel.config.vocab_size) ∧
      ∃ lg, testModel.forwardLogits testPrims [1, 0, 1] [2, 0] = .ok lg ∧
        lg.length = ([1, 0, 1] : List ℕ).length ∧
        ∀ row ∈ lg, row.length = testModel.config.vocab_size :=
  ⟨⟨rfl, rfl, rfl, rfl⟩,
    logits_shape testPrims testModel [1, 0, 1] [2, 0] rfl rfl rfl rfl⟩

/-! ## Causal-mask noninterference -/

theorem getElem?_of_take_eq {α : Type} {as bs : List α} {k j : ℕ}
    (h : as.take k = bs.take k) (hj : j < k) : as[j]? = bs[j]? := by
  rw [← List.getElem?_take_of_lt (l := as) hj, h, List.getElem?_take_of_lt hj]

theorem getD_map_of_take_eq {α β : Type} (f : α → β) {as bs : List α} {k j : ℕ} (d : β)
    (h : as.take k = bs.take k) (hj : j < k) :
    (as.map f).getD j d = (bs.map f).getD j d := by
  rw [List.getD_eq_getElem?_getD, List.getD_eq_getElem?_getD, List.getElem?_map,
    List.getElem?_map, getElem?_of_take_eq h hj]

theorem filter_le_range (n i : ℕ) :
    (List.range n).filter (fun j => decide (j ≤ i)) = List.range (min (i + 1) n) := by
  induction n with
  | zero => rfl
  | succ n ih =>
    rw [List.range_succ, List.filter_append, ih]
    by_cases h : n ≤ i
    · have h1 : min (i + 1) (n + 1) = n + 1 := by omega
      have h2 : min (i + 1) n = n := by omega
      rw [h1, h2, List.range_succ]
      simp [h]
    · have h1 : min (i + 1) (n + 1) = i + 1 := by omega
      have h2 : min (i + 1) n = i + 1 := by omega
      rw [h1, h2]
      simp [h]

/-- Under the causal mask, a query position `i` of the sequence attends to
exactly the positions `0 .. i`. -/
theorem attnAllowed_causal (L len i : ℕ) (hi : i < len) :
    attnAllowed (generate_causal_mask L) len i = List.range (i + 1) := by
  unfold attnAllowed
  have hp : (fun j => !(generate_causal_mask L i j)) = (fun j => decide (j ≤ i)) := by
    funext j
    rw [generate_causal_mask, ← decide_not, decide_eq_decide]
    omega
  rw [hp, filter_le_range]
  congr 1
  omega

/-- The multi-head attention outputs at the first `k` positions depend only
on the first `k` positions of the input when the mask is causal. -/
theorem mha_take_eq (P : Prims) (A : MultiheadAttention) (e n L k : ℕ)
    {as bs : List (List ℚ)} (hl : as.length = bs.length) (h : as.take k = bs.take k) :
    (A.forward P e n (generate_causal_mask L) as).take k =
      (A.forward P e n (generate_causal_mask L) bs).take k := by
  unfold MultiheadAttention.forward
  rw [← List.map_take, ← List.map_take, List.take_range, List.take_range, hl]
  apply List.map_congr_left
  intro i hi
  rw [List.mem_range] at hi
  have hik : i < k := lt_of_lt_of_le hi (min_le_left _ _)
  have hibs : i < bs.length := lt_of_lt_of_le hi (min_le_right _ _)
  have hias : i < as.length := hl ▸ hibs
  have hq : (as.map (matVec A.Wq A.bq)).getD i [] = (bs.map (matVec A.Wq A.bq)).getD i [] :=
    getD_map_of_take_eq _ _ h hik
  have hkjs : (List.range (i + 1)).map (fun j => (as.map (matVec A.Wk A.bk)).getD j []) =
      (List.range (i + 1)).map (fun j => (bs.map (matVec A.Wk A.bk)).getD j []) :=
    List.map_congr_left (fun j hj =>
      getD_map_of_take_eq _ _ h (lt_of_lt_of_le (List.mem_range.mp hj) hik))
  have hvjs : (List.range (i + 1)).map (fun j => (as.map (matVec A.Wv A.bv)).getD j []) =
      (List.range (i + 1)).map (fun j => (bs.map (matVec A.Wv A.bv)).getD j []) :=
    List.map_congr_left (fun j hj =>
      getD_map_of_take_eq _ _ h (lt_of_lt_of_le (List.mem_range.mp hj) hik))
  simp only [attnAllowed_causal L as.length i hias, attnAllowed_causal L bs.length i hibs,
    hq, hkjs, hvjs]

/-- The attention sublayer preserves position-wise agreement on a prefix
under the causal mask. -/
theorem sublayer1_take_eq (P : Prims) (Ly : TransformerEncoderLayer) (e n L k : ℕ)
    {as bs : List (List ℚ)} (hl : as.length = bs.length) (h : as.take k = bs.take k) :
    (Ly.sublayer1 P e n (generate_causal_mask L) as).take k =
      (Ly.sublayer1 P e n (generate_causal_mask L) bs).take k := by
  unfold TransformerEncoderLayer.sublayer1
  rw [List.take_zipWith, List.take_zipWith, h, mha_take_eq P Ly.self_attn e n L k hl h]

/-- A whole encoder layer preserves position-wise agreement on a prefix
under the causal mask. -/
theorem layer_take_eq (P : Prims) (Ly : TransformerEncoderLayer) (e n L k : ℕ)
    {as bs : List (List ℚ)} (hl : as.length = bs.length) (h : as.take k = bs.take k) :
    (Ly.forward P e n (generate_causal_mask L) as).take k =
      (Ly.forward P e n (generate_causal_mask L) bs).take k := by
  unfold TransformerEncoderLayer.forward
  rw [List.take_zipWith, List.take_zipWith, ← List.map_take, ← List.map_take,
    sublayer1_take_eq P Ly e n L k hl h]

/-- The whole transformer stack preserves position-wise agreement on a
prefix under the causal mask. -/
theorem stack_take_eq (P : Prims) (T : MolGPTTransformer) (e n L k : ℕ)
    {as bs : List (List ℚ)} (hl : as.length = bs.length) (h : as.take k = bs.take k) :
    (T.forward P e n (generate_causal_mask L) as).take k =
      (T.forward P e n (generate_causal_mask L) bs).take k := by
  unfold MolGPTTransformer.forward
  induction T.layers generalizing as bs with
  | nil => simpa using h
  | cons Ly ls ih =>
    rw [List.foldl_cons, List.foldl_cons]
    exact ih (by rw [length_layer, length_layer, hl]) (layer_take_eq P Ly e n L k hl h)

/-- The token+position embeddings preserve agreement on a token prefix. -/
theorem embeddings_take_eq (E : MolGPTEmbeddings) {xs ys : List ℕ} {k : ℕ}
    (hlen : xs.length = ys.length) (h : xs.take k = ys.take k) :
    (E.forward xs).take k = (E.forward ys).take k := by
  unfold MolGPTEmbeddings.forward
  rw [List.take_zipWith, List.take_zipWith, h, List.take_range, List.take_range, hlen]

/-- C1 (`causal_mask_noninterference`).  Causal-mask noninterference: with
the descriptors held fixed and the tokens at positions `≤ i` held fixed,
changing the token content strictly after position `i` leaves the returned
logits at token position `i` unchanged. -/
theorem causal_mask_noninterference (P : Prims) (M : MolGPTModel)
    (descriptors : List ℚ) (xs ys : List ℕ) (i : ℕ)
    (hdesc : descriptors.length = M.descriptor_encoder.desc_size)
    (hlen : xs.length = ys.length)
    (hi : i < xs.length)
    (hpre : xs.take (i + 1) = ys.take (i + 1)) :
    ∃ l1 l2, M.forwardLogits P xs descriptors = .ok l1 ∧
      M.forwardLogits P ys descriptors = .ok l2 ∧
      l1.length = xs.length ∧ l2.length = ys.length ∧ l1[i]? = l2[i]? := by
  have hde := descriptor_forward_ok (P := P) hdesc
  refine ⟨_, _, forwardLogits_ok hde, forwardLogits_ok hde, ?_, ?_, ?_⟩
  · rw [List.length_drop, List.length_map, length_stack, List.length_append,
      length_embeddings]
    omega
  · rw [List.length_drop, List.length_map, length_stack, List.length_append,
      length_embeddings]
    omega
  set demb := List.zipWith (fun i v => (M.descriptor_encoder.bit_emb i).map (fun e => e * v))
    (List.range descriptors.length) (descNorm P descriptors) with hdemb
  have hXlen : (demb ++ M.embeddings.forward xs).length =
      (demb ++ M.embeddings.forward ys).length := by
    rw [List.length_append, List.length_append, length_embeddings, length_embeddings, hlen]
  rw [List.getElem?_drop, List.getElem?_drop, List.getElem?_map, List.getElem?_map]
  have hstack : (M.transformer.forward P M.config.embedding_dim M.config.n_heads
        (generate_causal_mask (demb ++ M.embeddings.forward xs).length)
        (demb ++ M.embeddings.forward xs)).take (demb.length + (i + 1)) =
      (M.transformer.forward P M.config.embedding_dim M.config.n_heads
        (generate_causal_mask (demb ++ M.embeddings.forward xs).length)
        (demb ++ M.embeddings.forward ys)).take (demb.length + (i + 1)) := by
    apply stack_take_eq _ _ _ _ _ _ hXlen
    rw [List.take_append, List.take_append, embeddings_take_eq M.embeddings hlen hpre]
  rw [show generate_causal_mask (demb ++ M.embeddings.forward ys).length =
      generate_causal_mask (demb ++ M.embeddings.forward xs).length from rfl]
  rw [getElem?_of_take_eq hstack (by omega)]

/-- C1 witness: on the tiny concrete model, two token sequences agreeing up
to position 1 but differing after it give the same logits row at
position 1. -/
theorem causal_mask_noninterference_witness :
    (([2, 0] : List ℚ).length = testModel.descriptor_encoder.desc_size ∧
        ([1, 0, 1] : List ℕ).length = ([1, 0, 0] : List ℕ).length ∧
        1 < ([1, 0, 1] : List ℕ).length ∧
        ([1, 0, 1] : List ℕ).take 2 = ([1, 0, 0] : List ℕ).take 2) ∧
      ∃ l1 l2, testModel.forwardLogits testPrims [1, 0, 1] [2, 0] = .ok l1 ∧
        testModel.forwardLogits testPrims [1, 0, 0] [2, 0] = .ok l2 ∧
        l1.length = 3 ∧ l2.length = 3 ∧ l1[1]? = l2[1]? :=
  ⟨⟨rfl, rfl, by decide, rfl⟩,
    causal_mask_noninterference testPrims testModel [2, 0] [1, 0, 1] [1, 0, 0] 1
      rfl rfl (by decide) rfl⟩

/-! ## Loss and padding (C3) -/

/-- C3 counterexample: a batch whose labels are entirely the padding index
does NOT get a well-defined zero loss — `CrossEntropyLoss(ignore_index)`
with mean reduction divides by the number of contributing positions, which
is 0, so the loss is the undefined `0/0` (float NaN), embedded as `none`. -/
theorem loss_all_padding_counterexample :
    (testModel.forwardWithLoss testPrims [[1]] [[2, 0]] [[0]]).map Prod.fst =
      .ok none := by rfl

/-- C3 amended (`loss_excludes_padding`).  When the forward pass returns,
the loss on a batch whose labels are entirely the padding index is the
undefined `0/0` mean (float NaN, embedded as `none`) rather than a defined
zero; and whenever at least one position carries a non-padding label, the
loss is the average cross-entropy over exactly the positions whose label
differs from the padding index. -/
theorem loss_excludes_padding (P : Prims) (M : MolGPTModel)
    (input_ids : List (List ℕ)) (descriptors : List (List ℚ))
    (labels : List (List ℕ)) (out : Option ℚ × List (List (List ℚ)))
    (hok : M.forwardWithLoss P input_ids descriptors labels = .ok out) :
    ((∀ l ∈ labels.flatten, l = M.config.padding_idx) → out.1 = none) ∧
      (((out.2.flatten.zip labels.flatten).filter
          (fun p => !(p.2 == M.config.padding_idx))) ≠ [] →
        out.1 = some ((((out.2.flatten.zip labels.flatten).filter
            (fun p => !(p.2 == M.config.padding_idx))).map
              (fun p => ceLossPos P p.1 p.2)).sum /
          ((((out.2.flatten.zip labels.flatten).filter
            (fun p => !(p.2 == M.config.padding_idx))).length : ℕ) : ℚ))) := by
  unfold MolGPTModel.forwardWithLoss at hok
  revert hok
  cases hseq : seqExcept (List.zipWith (M.forwardLogits P) input_ids descriptors) with
  | error e => intro hok; exact absurd hok (by simp)
  | ok logitss =>
    intro hok
    have hout : (crossEntropyLossMean P M.config.padding_idx logitss.flatten
        labels.flatten, logitss) = out := Except.ok.inj hok
    obtain ⟨o1, o2⟩ := out
    obtain ⟨h1, h2⟩ := Prod.mk.injEq .. ▸ hout
    subst h1
    subst h2
    constructor
    · intro hpad
      have hfil : (logitss.flatten.zip labels.flatten).filter
          (fun p => !(p.2 == M.config.padding_idx)) = [] := by
        apply List.filter_eq_nil_iff.mpr
        intro p hp
        rw [hpad p.2 (List.of_mem_zip hp).2]
        simp
      show crossEntropyLossMean P M.config.padding_idx logitss.flatten labels.flatten = none
      unfold crossEntropyLossMean
      rw [hfil]
      rfl
    · intro hne
      show crossEntropyLossMean P M.config.padding_idx logitss.flatten labels.flatten = _
      unfold crossEntropyLossMean
      rw [if_neg (by simpa [List.isEmpty_iff] using hne)]

/-- C3 witness: on the tiny concrete model, the all-padding batch yields the
undefined loss `none`. -/
theorem loss_excludes_padding_witness :
    ∃ out, testModel.forwardWithLoss testPrims [[1]] [[2, 0]] [[0]] = .ok out ∧
      out.1 = none := by
  refine ⟨(testModel.forwardWithLoss testPrims [[1]] [[2, 0]] [[0]]).toOption.getD
    (none, []), by rfl, ?_⟩
  exact (loss_excludes_padding testPrims testModel [[1]] [[2, 0]] [[0]] _ (by rfl)).1
    (by decide)

/-! ## Generation (C4, C10) -/

theorem seqExcept_ok_length {α : Type} {l : List (Except String α)} {out : List α}
    (h : seqExcept l = .ok out) : out.length = l.length := by
  induction l generalizing out with
  | nil =>
    have : ([] : List α) = out := Except.ok.inj h
    rw [← this]
    rfl
  | cons a l ih =>
    cases a with
    | error e => exact absurd h (by simp [seqExcept])
    | ok x =>
      unfold seqExcept at h
      revert h
      cases hseq : seqExcept l with
      | error e => intro h; exact absurd h (by simp [Except.map])
      | ok tail =>
        intro h
        have h2 : (Except.ok (x :: tail) : Except String (List α)) = Except.ok out := by
          simpa [Except.map] using h
        rw [← Except.ok.inj h2, List.length_cons, ih hseq, List.length_cons]

theorem nextTokens_length (logitss : List (List (List ℚ))) :
    (nextTokens logitss).length = logitss.length := by
  simp [nextTokens]

theorem append_step_getD_length (gen : List (List ℕ)) (next : List ℕ) (j : ℕ) :
    ((List.zipWith (fun g t => g ++ [t]) gen next).getD j []).length ≤
      (gen.getD j []).length + 1 := by
  induction gen generalizing next j with
  | nil => simp
  | cons g gen ih =>
    cases next with
    | nil => simp
    | cons t next =>
      cases j with
      | zero => simp
      | succ j => simpa using ih next j

theorem append_step_getD_ext (gen : List (List ℕ)) (next : List ℕ) (j : ℕ)
    (hn : gen.length ≤ next.length) :
    ∃ tail, (List.zipWith (fun g t => g ++ [t]) gen next).getD j [] =
      gen.getD j [] ++ tail := by
  induction gen generalizing next j with
  | nil => exact ⟨[], by simp⟩
  | cons g gen ih =>
    cases next with
    | nil => exact absurd hn (by simp)
    | cons t next =>
      cases j with
      | zero => exact ⟨[t], by simp⟩
      | succ j => simpa using ih next j (by simpa using hn)

/-- Every `.ok` run of the generation loop preserves the batch size, grows
each row by at most the remaining fuel, and leaves the starting sequences as
prefixes. -/
theorem generateAux_ok_invariant (P : Prims) (M : MolGPTModel) :
    ∀ (L : ℕ) (gen : List (List ℕ)) (descriptors : List (List ℚ))
      (out : List (List ℕ)),
      descriptors.length = gen.length →
      M.generateAux P descriptors L gen = .ok out →
      out.length = gen.length ∧
        (∀ j, (out.getD j []).length ≤ (gen.getD j []).length + L) ∧
        (∀ j, ∃ tail, out.getD j [] = gen.getD j [] ++ tail) := by
  intro L
  induction L with
  | zero =>
    intro gen descriptors out hd hok
    have : gen = out := Except.ok.inj hok
    subst this
    exact ⟨rfl, fun j => by omega, fun j => ⟨[], by simp⟩⟩
  | succ n ih =>
    intro gen descriptors out hd hok
    unfold MolGPTModel.generateAux at hok
    revert hok
    cases hseq : seqExcept (List.zipWith (M.forwardLogits P) gen descriptors) with
    | error e => intro hok; exact absurd hok (by simp)
    | ok logitss =>
      intro hok
      have hok2 : (if ((nextTokens logitss).all fun t => t == M.config.padding_idx) = true
          then Except.ok (List.zipWith (fun g t => g ++ [t]) gen (nextTokens logitss))
          else M.generateAux P descriptors n
            (List.zipWith (fun g t => g ++ [t]) gen (nextTokens logitss))) =
          Except.ok out := hok
      clear hok
      have hlg : logitss.length = gen.length := by
        rw [seqExcept_ok_length hseq, List.length_zipWith, hd, min_self]
      have hnl : gen.length ≤ (nextTokens logitss).length := by
        rw [nextTokens_length, hlg]
      have hlen2 : (List.zipWith (fun g t => g ++ [t]) gen (nextTokens logitss)).length =
          gen.length := by
        rw [List.length_zipWith, nextTokens_length, hlg, min_self]
      by_cases hstop : ((nextTokens logitss).all fun t => t == M.config.padding_idx) = true
      · rw [if_pos hstop] at hok2
        have : List.zipWith (fun g t => g ++ [t]) gen (nextTokens logitss) = out :=
          Except.ok.inj hok2
        subst this
        exact ⟨hlen2, fun j => by have := append_step_getD_length gen (nextTokens logitss) j; omega,
          fun j => append_step_getD_ext gen (nextTokens logitss) j hnl⟩
      · rw [if_neg hstop] at hok2
        obtain ⟨hl, hb, he⟩ := ih (List.zipWith (fun g t => g ++ [t]) gen (nextTokens logitss))
          descriptors out (by rw [hlen2, hd]) hok2
        refine ⟨hl.trans hlen2, fun j => ?_, fun j => ?_⟩
        · have h1 := hb j
          have h2 := append_step_getD_length gen (nextTokens logitss) j
          omega
        · obtain ⟨t1, ht1⟩ := he j
          obtain ⟨t2, ht2⟩ := append_step_getD_ext gen (nextTokens logitss) j hnl
          exact ⟨t2 ++ t1, by rw [ht1, ht2, List.append_assoc]⟩

/-- C4 (`generate_termination`).  Generation appends at most `max_length`
tokens to every example, and stops as soon as every example in the batch has
produced the padding index as its most recently appended token: one further
loop iteration returns immediately, whatever fuel remains. -/
theorem generate_termination (P : Prims) (M : MolGPTModel) :
    (∀ (max_length : ℕ) (input_ids : List (List ℕ)) (descriptors : List (List ℚ))
        (out : List (List ℕ)),
        descriptors.length = input_ids.length →
        M.generate P input_ids descriptors max_length = .ok out →
        out.length = input_ids.length ∧
          ∀ j, (out.getD j []).length ≤ (input_ids.getD j []).length + max_length) ∧
      (∀ (n : ℕ) (gen : List (List ℕ)) (descriptors : List (List ℚ))
          (logitss : List (List (List ℚ))),
        seqExcept (List.zipWith (M.forwardLogits P) gen descriptors) = .ok logitss →
        (nextTokens logitss).all (fun t => t == M.config.padding_idx) →
        M.generateAux P descriptors (n + 1) gen =
          .ok (List.zipWith (fun g t => g ++ [t]) gen (nextTokens logitss))) := by
  constructor
  · intro max_length input_ids descriptors out hd hok
    obtain ⟨hl, hb, -⟩ := generateAux_ok_invariant P M max_length input_ids descriptors out hd hok
    exact ⟨hl, hb⟩
  · intro n gen descriptors logitss hseq hstop
    unfold MolGPTModel.generateAux
    rw [hseq]
    show (if ((nextTokens logitss).all fun t => t == M.config.padding_idx) = true
        then Except.ok (List.zipWith (fun g t => g ++ [t]) gen (nextTokens logitss))
        else M.generateAux P descriptors n
          (List.zipWith (fun g t => g ++ [t]) gen (nextTokens logitss))) =
      Except.ok (List.zipWith (fun g t => g ++ [t]) gen (nextTokens logitss))
    rw [if_pos hstop]

/-- A concrete model with vocabulary size 1: every logits row has a single
entry, so the arg-max next token is always index 0, which is the padding
index — generation stops after one appended token. -/
def testModelV1 : MolGPTModel :=
  { testModel with
    config := { testConfig with vocab_size := 1 },
    lm_headW := [[1, 1]], lm_headb := [0] }

/-- A fallible result whose `toOption` is inhabited is the corresponding
`ok`; this lets witnesses name concrete run results without spelling out
their (large) literals. -/
theorem except_eq_ok_getD {α : Type} (e : Except String α) (d : α)
    (h : e.toOption.isSome = true) : e = .ok (e.toOption.getD d) := by
  cases e with
  | ok x => rfl
  | error er => exact absurd h (by simp [Except.toOption])

/-- C4 witness: a concrete bounded run, and a concrete early stop (the
zero-logits model arg-maxes to the padding index immediately, so one
iteration returns even with fuel left). -/
theorem generate_termination_witness :
    (∃ out, testModelV1.generate testPrims [[1]] [[2, 0]] 2 = .ok out ∧
        out.length = 1 ∧
        ∀ j, (out.getD j []).length ≤ (([[1]] : List (List ℕ)).getD j []).length + 2) ∧
      (∃ logitss, seqExcept (List.zipWith (testModelV1.forwardLogits testPrims)
          [[1]] [[2, 0]]) = .ok logitss ∧
        testModelV1.generateAux testPrims [[2, 0]] 5 [[1]] =
          .ok (List.zipWith (fun g t => g ++ [t]) [[1]] (nextTokens logitss))) := by
  constructor
  · refine ⟨(testModelV1.generate testPrims [[1]] [[2, 0]] 2).toOption.getD [],
      except_eq_ok_getD _ [] (by rfl), ?_⟩
    exact (generate_termination testPrims testModelV1).1 2 [[1]] [[2, 0]] _ rfl
      (except_eq_ok_getD _ [] (by rfl))
  · refine ⟨(seqExcept (List.zipWith (testModelV1.forwardLogits testPrims)
      [[1]] [[2, 0]])).toOption.getD [], except_eq_ok_getD _ [] (by rfl), ?_⟩
    exact (generate_termination testPrims testModelV1).2 4 [[1]] [[2, 0]] _
      (except_eq_ok_getD _ [] (by rfl)) (by rfl)

/-- C10 (`generate_preserves_prompt`).  Generation never rewrites the
prompt: every returned sequence is its original prompt followed by the
appended tokens. -/
theorem generate_preserves_prompt (P : Prims) (M : MolGPTModel)
    (input_ids : List (List ℕ)) (descriptors : List (List ℚ))
    (max_length : ℕ) (out : List (List ℕ))
    (hd : descriptors.length = input_ids.length)
    (hok : M.generate P input_ids descriptors max_length = .ok out) :
    out.length = input_ids.length ∧
      ∀ j, ∃ tail, out.getD j [] = input_ids.getD j [] ++ tail := by
  obtain ⟨hl, -, he⟩ := generateAux_ok_invariant P M max_length input_ids descriptors out hd hok
  exact ⟨hl, he⟩

/-- C10 witness: a concrete run keeps the prompt `[1, 1]` as a prefix. -/
theorem generate_preserves_prompt_witness :
    ∃ out, testModelV1.generate testPrims [[1, 1]] [[2, 0]] 3 = .ok out ∧
      out.length = 1 ∧
      ∀ j, ∃ tail, out.getD j [] = ([[1, 1]] : List (List ℕ)).getD j [] ++ tail := by
  refine ⟨(testModelV1.generate testPrims [[1, 1]] [[2, 0]] 3).toOption.getD [],
    except_eq_ok_getD _ [] (by rfl), ?_⟩
  exact generate_preserves_prompt testPrims testModelV1 [[1, 1]] [[2, 0]] 3 _ rfl
    (except_eq_ok_getD _ [] (by rfl))

end RDKit2Mol
